import Mathlib

/-!
Verification of the merge layers (`Concat`, `Elementwise`) of
`tensorlayer/layers/merge.py` against their specification.

Tensors of the external engine are modelled as finitely nested lists over an
element type `α`; the engine's concatenation primitive, elementwise binary
operations and the splitting operation are modelled from the spec (the engine
itself is an external collaborator).  The two layer classes are embedded
faithfully from the source: statements that raise in Python are embedded as
`Except` errors.
-/

namespace TL

/-- A tensor of the external engine: either a scalar or a list of tensors of
one smaller rank.  A well-formed tensor (see `Tensor.wf`) has children of
equal shape. -/
inductive Tensor (α : Type) : Type
  | scalar : α → Tensor α
  | dim : List (Tensor α) → Tensor α

variable {α : Type}

/-- The shape of a tensor: the list of its dimension sizes, outermost first.
For a well-formed tensor this is the usual tensor shape. -/
def Tensor.shape : Tensor α → List Nat
  | .scalar _ => []
  | .dim [] => [0]
  | .dim (t :: ts) => (ts.length + 1) :: t.shape

/-- All tensors of a list share the shape of the first element. -/
def shapesOk : List (Tensor α) → Bool
  | [] => true
  | t :: ts => ts.all (fun u => u.shape == t.shape)

mutual

/-- Well-formedness: every `dim` node has children that are themselves
well-formed and all of the same shape. -/
def Tensor.wf : Tensor α → Bool
  | .scalar _ => true
  | .dim ts => wfAll ts && shapesOk ts

/-- All tensors of a list are well-formed. -/
def wfAll : List (Tensor α) → Bool
  | [] => true
  | t :: ts => t.wf && wfAll ts

end

/-- Shapes `s₁` and `s₂` have the same rank and agree everywhere except
possibly at dimension `axis` (which must exist). -/
def compatExcept : Nat → List Nat → List Nat → Bool
  | 0, _ :: t₁, _ :: t₂ => t₁ == t₂
  | k+1, a :: t₁, b :: t₂ => a == b && compatExcept k t₁ t₂
  | _, _, _ => false

/-- Concatenation of two tensors along dimension `k` (junk on malformed
input; the engine's entry point `tfConcat` only reaches it on validated
input). -/
def concat2 : Nat → Tensor α → Tensor α → Tensor α
  | 0, .dim l₁, .dim l₂ => .dim (l₁ ++ l₂)
  | k+1, .dim l₁, .dim l₂ => .dim (List.zipWith (concat2 k) l₁ l₂)
  | _, t₁, _ => t₁

/-- Concatenation of a non-empty list of tensors along dimension `k`,
joining them end-to-end in order. -/
def concatAll (k : Nat) : List (Tensor α) → Tensor α
  | [] => .dim []
  | [t] => t
  | t :: u :: ts => concat2 k t (concatAll k (u :: ts))

/-- Restriction of a tensor to its first `n` slices along dimension `k`. -/
def take2 : Nat → Nat → Tensor α → Tensor α
  | 0, n, .dim l => .dim (l.take n)
  | k+1, n, .dim l => .dim (l.map (take2 k n))
  | _, _, t => t

/-- Removal of the first `n` slices of a tensor along dimension `k`. -/
def drop2 : Nat → Nat → Tensor α → Tensor α
  | 0, n, .dim l => .dim (l.drop n)
  | k+1, n, .dim l => .dim (l.map (drop2 k n))
  | _, _, t => t

/-- Modelled from the spec: splitting a tensor along dimension `k` at the
given boundary sizes, recovering consecutive slices (the engine's split
primitive, used by the spec to state the concat round-trip property). -/
def splitSizes (k : Nat) : List Nat → Tensor α → List (Tensor α)
  | [], _ => []
  | n :: ns, t => take2 k n t :: splitSizes k ns (drop2 k n t)

mutual

/-- Modelled from the spec: an element-wise binary combine operation of the
engine (e.g. `tf.add`, `tf.minimum`), applying `f` pointwise to two tensors
of equal shape (junk on mismatched structure). -/
def tmap2 (f : α → α → α) : Tensor α → Tensor α → Tensor α
  | .scalar a, .scalar b => .scalar (f a b)
  | .dim l₁, .dim l₂ => .dim (tmap2All f l₁ l₂)
  | t, _ => t

/-- Pointwise application of `tmap2 f` to two lists of tensors. -/
def tmap2All (f : α → α → α) : List (Tensor α) → List (Tensor α) → List (Tensor α)
  | t :: ts, u :: us => tmap2 f t u :: tmap2All f ts us
  | _, _ => []

end

/-- Modelled from the spec: the engine's element-wise addition (`tf.add`). -/
def tfAdd : Tensor Int → Tensor Int → Tensor Int := tmap2 (· + ·)

/-- Modelled from the spec: the engine's element-wise minimum
(`tf.minimum`). -/
def tfMin : Tensor Int → Tensor Int → Tensor Int := tmap2 min

/-- A tensor produced by an engine operation, tagged with the operation
name that was passed to the engine. -/
structure NamedTensor (α : Type) : Type where
  tag : String
  val : Tensor α

/-- Errors signalled by the external tensor engine. -/
inductive TfError : Type
  | emptyInput
  | invalidAxis
  | shapeMismatch
deriving DecidableEq

/-- Normalisation of a possibly negative concatenation axis against a rank:
`some` of the non-negative dimension index when the axis lies in
`[-rank, rank)`, and `none` otherwise. -/
def normAxis (axis : Int) (rank : Nat) : Option Nat :=
  if 0 ≤ axis then
    if axis < (rank : Int) then some axis.toNat else none
  else
    if -(rank : Int) ≤ axis then some (axis + (rank : Int)).toNat else none

/-- Modelled from the spec: the engine's concatenation primitive
(`tf.concat`), taking an ordered sequence of tensors, an axis and a name.
It fails on an empty sequence, on an axis outside `[-rank, rank)` of the
first input, and on input shapes that disagree outside the axis; otherwise
it returns the end-to-end concatenation along the axis, tagged with the
given name. -/
def tfConcat (values : List (Tensor α)) (axis : Int) (name : String) :
    Except TfError (NamedTensor α) :=
  match values with
  | [] => .error .emptyInput
  | t :: ts =>
    match normAxis axis t.shape.length with
    | none => .error .invalidAxis
    | some a =>
      if ts.all (fun u => compatExcept a t.shape u.shape) then
        .ok ⟨name, concatAll a (t :: ts)⟩
      else
        .error .shapeMismatch

/-- Errors raised by the Python runtime while executing a layer method. -/
inductive PyError : Type
  | indexError
  | nameError
  | typeError
deriving DecidableEq

/-- Modelled from the spec: the base `Layer` constructor's naming service,
which keeps a supplied name and otherwise assigns a generated unique
name (`fresh` stands for the generated name). -/
def resolveLayerName (fresh : String) : Option String → String
  | some n => n
  | none => fresh

/-- The `Concat` layer: its construction-time configuration. -/
structure Concat : Type where
  name : String
  concat_dim : Int

/-- Embedding of `Concat.__init__`: stores the concatenation dimension and
the (resolved) layer name. -/
def Concat.make (fresh : String) (concat_dim : Int) (name : Option String) : Concat :=
  ⟨resolveLayerName fresh name, concat_dim⟩

/-- `Concat.__init__` invoked with its default arguments
(`concat_dim=-1`, `name=None`). -/
def Concat.makeDefault (fresh : String) : Concat :=
  Concat.make fresh (-1) none

/-- Embedding of `Concat.build`: a no-op (`pass`), returning the layer
state unchanged. -/
def Concat.build (l : Concat) (_inputs : List (Tensor α)) : Concat := l

/-- Embedding of `Concat.forward`: a single call
`tf.concat(inputs, self.concat_dim, name=self.name)`. -/
def Concat.forward (l : Concat) (inputs : List (Tensor α)) :
    Except TfError (NamedTensor α) :=
  tfConcat inputs l.concat_dim l.name

/-- State-passing form of `Concat.forward`: the method body writes no
attribute of `self`, so the layer component of the result is the input
layer. -/
def Concat.forwardS (l : Concat) (inputs : List (Tensor α)) :
    Except TfError (NamedTensor α) × Concat :=
  (Concat.forward l inputs, l)

/-- The `Elementwise` layer state after construction: the resolved name and
the `act` attribute inherited from the base layer.  The source's
`__init__` stores neither `combine_fn` nor `act`, so the state has no
combine component. -/
structure Elementwise (α : Type) : Type where
  name : String
  act : Option (Tensor α → Tensor α)

/-- Embedding of `Elementwise.__init__`: `super().__init__(name)` resolves
the name and (modelled from the spec, base `Layer` being out of scope)
initialises `self.act` to `None`; the `combine_fn` and `act` arguments are
read only by the construction-time log line and are not stored. -/
def Elementwise.make (fresh : String)
    (_combine_fn : Tensor α → Tensor α → Tensor α)
    (_act : Option (Tensor α → Tensor α)) (name : Option String) :
    Elementwise α :=
  ⟨resolveLayerName fresh name, none⟩

/-- `Elementwise.__init__` invoked with its default arguments
(`combine_fn=tf.minimum`, `act=None`, `name=None`). -/
def Elementwise.makeDefault (fresh : String) : Elementwise Int :=
  Elementwise.make fresh tfMin none none

/-- Embedding of `Elementwise.build`: a no-op (`pass`). -/
def Elementwise.build (l : Elementwise α) (_inputs : List (Tensor α)) :
    Elementwise α := l

/-- Embedding of `Elementwise.forward`, statement by statement:
`outputs = inputs[0]` raises `IndexError` on an empty list; the loop body
`combine_fn(outputs, input, name=self.name)` evaluates the unbound name
`combine_fn` and raises `NameError` on its first iteration (reached exactly
when there are at least two inputs); `outputs = self.act(outputs)` calls
`self.act`, raising `TypeError` when it is `None`. -/
def Elementwise.forward (l : Elementwise α) (inputs : List (Tensor α)) :
    Except PyError (Tensor α) :=
  match inputs with
  | [] => .error .indexError
  | [t] =>
    match l.act with
    | some f => .ok (f t)
    | none => .error .typeError
  | _ :: _ :: _ => .error .nameError

/-- State-passing form of `Elementwise.forward`: the method body writes no
attribute of `self`, so the layer component of the result is the input
layer. -/
def Elementwise.forwardS (l : Elementwise α) (inputs : List (Tensor α)) :
    Except PyError (Tensor α) × Elementwise α :=
  (Elementwise.forward l inputs, l)

/-! ### Helper lemmas about shapes, well-formedness and compatibility -/

theorem compatExcept_nil_left (k : Nat) (s : List Nat) :
    compatExcept k [] s = false := by
  cases k <;> cases s <;> rfl

theorem compatExcept_nil_right (k : Nat) (s : List Nat) :
    compatExcept k s [] = false := by
  cases k <;> cases s <;> rfl

theorem compatExcept_length : ∀ (k : Nat) (s₁ s₂ : List Nat),
    compatExcept k s₁ s₂ = true → s₁.length = s₂.length := by
  intro k
  induction k with
  | zero =>
    intro s₁ s₂ h
    match s₁, s₂ with
    | _ :: t₁, _ :: t₂ =>
      simp only [compatExcept, beq_iff_eq] at h
      simp [h]
  | succ k ih =>
    intro s₁ s₂ h
    match s₁, s₂ with
    | a :: t₁, b :: t₂ =>
      simp only [compatExcept, Bool.and_eq_true, beq_iff_eq] at h
      simp [ih t₁ t₂ h.2]

theorem compatExcept_lt : ∀ (k : Nat) (s₁ s₂ : List Nat),
    compatExcept k s₁ s₂ = true → k < s₁.length := by
  intro k
  induction k with
  | zero =>
    intro s₁ s₂ h
    match s₁, s₂ with
    | _ :: _, _ :: _ => simp
  | succ k ih =>
    intro s₁ s₂ h
    match s₁, s₂ with
    | a :: t₁, b :: t₂ =>
      simp only [compatExcept, Bool.and_eq_true, beq_iff_eq] at h
      have := ih t₁ t₂ h.2
      simp only [List.length_cons]
      omega

theorem compatExcept_trans : ∀ (k : Nat) (s s₁ s₂ : List Nat),
    compatExcept k s s₁ = true → compatExcept k s s₂ = true →
    compatExcept k s₁ s₂ = true := by
  intro k
  induction k with
  | zero =>
    intro s s₁ s₂ h h'
    match s, s₁, s₂ with
    | _ :: t, _ :: t₁, _ :: t₂ =>
      simp only [compatExcept, beq_iff_eq] at *
      rw [← h]
      exact h'
  | succ k ih =>
    intro s s₁ s₂ h h'
    match s, s₁, s₂ with
    | a :: t, a₁ :: t₁, a₂ :: t₂ =>
      simp only [compatExcept, Bool.and_eq_true, beq_iff_eq] at *
      exact ⟨by omega, ih t t₁ t₂ h.2 h'.2⟩

theorem compatExcept_set_right : ∀ (k : Nat) (s₁ s₂ : List Nat) (v : Nat),
    compatExcept k s₁ s₂ = true → compatExcept k s₁ (s₂.set k v) = true := by
  intro k
  induction k with
  | zero =>
    intro s₁ s₂ v h
    match s₁, s₂ with
    | _ :: t₁, _ :: t₂ =>
      simp only [List.set_cons_zero]
      simpa [compatExcept] using h
  | succ k ih =>
    intro s₁ s₂ v h
    match s₁, s₂ with
    | a :: t₁, b :: t₂ =>
      simp only [List.set_cons_succ]
      simp only [compatExcept, Bool.and_eq_true, beq_iff_eq] at *
      exact ⟨h.1, ih t₁ t₂ v h.2⟩

theorem wfAll_iff : ∀ l : List (Tensor α), wfAll l = true ↔ ∀ t ∈ l, t.wf = true := by
  intro l
  induction l with
  | nil => simp [wfAll]
  | cons t ts ih =>
    simp only [wfAll, Bool.and_eq_true, ih, List.mem_cons]
    constructor
    · rintro ⟨h₁, h₂⟩ u (rfl | hu)
      · exact h₁
      · exact h₂ u hu
    · intro h
      exact ⟨h t (Or.inl rfl), fun u hu => h u (Or.inr hu)⟩

theorem wf_cons_iff (t : Tensor α) (ts : List (Tensor α)) :
    (Tensor.dim (t :: ts)).wf = true ↔
      t.wf = true ∧ ∀ u ∈ ts, u.wf = true ∧ u.shape = t.shape := by
  show (wfAll (t :: ts) && shapesOk (t :: ts)) = true ↔ _
  simp only [wfAll, shapesOk, Bool.and_eq_true, wfAll_iff, List.all_eq_true,
    beq_iff_eq]
  constructor
  · rintro ⟨⟨h₁, h₂⟩, h₃⟩
    exact ⟨h₁, fun u hu => ⟨h₂ u hu, h₃ u hu⟩⟩
  · intro h
    exact ⟨⟨h.1, fun u hu => (h.2 u hu).1⟩, fun u hu => (h.2 u hu).2⟩

theorem exists_of_mem_zipWith {β : Type} {f : Tensor α → Tensor α → β} :
    ∀ {l₁ l₂ : List (Tensor α)} {w : β}, w ∈ List.zipWith f l₁ l₂ →
      ∃ u ∈ l₁, ∃ v ∈ l₂, w = f u v := by
  intro l₁
  induction l₁ with
  | nil => intro l₂ w h; simp at h
  | cons x l₁ ih =>
    intro l₂ w h
    cases l₂ with
    | nil => simp at h
    | cons y l₂ =>
      simp only [List.zipWith_cons_cons, List.mem_cons] at h
      rcases h with rfl | h
      · exact ⟨x, by simp, y, by simp, rfl⟩
      · obtain ⟨u, hu, v, hv, rfl⟩ := ih h
        exact ⟨u, by simp [hu], v, by simp [hv], rfl⟩

theorem map_eq_self_of_mem {f : Tensor α → Tensor α} :
    ∀ l : List (Tensor α), (∀ u ∈ l, f u = u) → l.map f = l := by
  intro l
  induction l with
  | nil => intro _; rfl
  | cons x l ih =>
    intro h
    simp only [List.map_cons, h x (by simp),
      ih (fun u hu => h u (by simp [hu]))]

theorem zipWith_eq_left {f : Tensor α → Tensor α → Tensor α} :
    ∀ (l₁ l₂ : List (Tensor α)), l₁.length = l₂.length →
      (∀ u ∈ l₁, ∀ v ∈ l₂, f u v = u) → List.zipWith f l₁ l₂ = l₁ := by
  intro l₁
  induction l₁ with
  | nil => intro l₂ _ _; rfl
  | cons x l₁ ih =>
    intro l₂ hl h
    cases l₂ with
    | nil => simp at hl
    | cons y l₂ =>
      simp only [List.zipWith_cons_cons, h x (by simp) y (by simp)]
      congr 1
      exact ih l₂ (by simpa using hl)
        (fun u hu v hv => h u (by simp [hu]) v (by simp [hv]))

theorem zipWith_eq_right {f : Tensor α → Tensor α → Tensor α} :
    ∀ (l₁ l₂ : List (Tensor α)), l₁.length = l₂.length →
      (∀ u ∈ l₁, ∀ v ∈ l₂, f u v = v) → List.zipWith f l₁ l₂ = l₂ := by
  intro l₁
  induction l₁ with
  | nil =>
    intro l₂ hl _
    cases l₂ with
    | nil => rfl
    | cons y l₂ => simp at hl
  | cons x l₁ ih =>
    intro l₂ hl h
    cases l₂ with
    | nil => simp at hl
    | cons y l₂ =>
      simp only [List.zipWith_cons_cons, h x (by simp) y (by simp)]
      congr 1
      exact ih l₂ (by simpa using hl)
        (fun u hu v hv => h u (by simp [hu]) v (by simp [hv]))

theorem set_getD_self : ∀ (s : List Nat) (k : Nat), k < s.length →
    s.set k (s.getD k 0) = s := by
  intro s
  induction s with
  | nil => intro k hk; simp at hk
  | cons a s ih =>
    intro k hk
    cases k with
    | zero => simp
    | succ k =>
      have hk' : k < s.length := by
        simp only [List.length_cons] at hk
        omega
      rw [List.getD_cons_succ, List.set_cons_succ, ih k hk']

theorem getD_set_self : ∀ (s : List Nat) (k v : Nat), k < s.length →
    (s.set k v).getD k 0 = v := by
  intro s
  induction s with
  | nil => intro k v hk; simp at hk
  | cons a s ih =>
    intro k v hk
    cases k with
    | zero => simp
    | succ k =>
      have hk' : k < s.length := by
        simp only [List.length_cons] at hk
        omega
      rw [List.set_cons_succ, List.getD_cons_succ, ih k v hk']

/-- Shape and well-formedness of binary concatenation: on well-formed
tensors whose shapes agree outside dimension `k`, `concat2 k` produces a
well-formed tensor whose shape is the first input's shape with the size at
`k` replaced by the sum of the two sizes at `k`. -/
theorem concat2_spec : ∀ (k : Nat) (t₁ t₂ : Tensor α), t₁.wf = true →
    t₂.wf = true → compatExcept k t₁.shape t₂.shape = true →
    (concat2 k t₁ t₂).shape
        = t₁.shape.set k (t₁.shape.getD k 0 + t₂.shape.getD k 0)
      ∧ (concat2 k t₁ t₂).wf = true := by
  intro k
  induction k with
  | zero =>
    intro t₁ t₂ h₁ h₂ hc
    cases t₁ with
    | scalar a => simp [Tensor.shape, compatExcept_nil_left] at hc
    | dim l₁ =>
      cases t₂ with
      | scalar b => simp [Tensor.shape, compatExcept_nil_right] at hc
      | dim l₂ =>
        cases l₁ with
        | nil =>
          cases l₂ with
          | nil => exact ⟨rfl, rfl⟩
          | cons y l₂' =>
            have hy : y.shape = [] := by
              have := hc
              simp only [Tensor.shape, compatExcept, beq_iff_eq] at this
              exact this.symm
            constructor
            · show (Tensor.dim ([] ++ y :: l₂')).shape = _
              simp [Tensor.shape, hy]
            · show (Tensor.dim ([] ++ y :: l₂')).wf = true
              simpa using h₂
        | cons x l₁' =>
          obtain ⟨hx, hl₁⟩ := (wf_cons_iff x l₁').mp h₁
          cases l₂ with
          | nil =>
            constructor
            · show (Tensor.dim ((x :: l₁') ++ [])).shape = _
              rw [List.append_nil]
              simp [Tensor.shape]
            · show (Tensor.dim ((x :: l₁') ++ [])).wf = true
              rw [List.append_nil]
              exact h₁
          | cons y l₂' =>
            have hxy : x.shape = y.shape := by
              have := hc
              simp only [Tensor.shape, compatExcept, beq_iff_eq] at this
              exact this
            obtain ⟨hy, hl₂⟩ := (wf_cons_iff y l₂').mp h₂
            constructor
            · show (Tensor.dim (x :: (l₁' ++ y :: l₂'))).shape = _
              simp only [Tensor.shape, List.length_append, List.length_cons,
                List.set_cons_zero, List.getD_cons_zero, List.cons.injEq]
              exact ⟨by omega, trivial⟩
            · show (Tensor.dim (x :: (l₁' ++ y :: l₂'))).wf = true
              refine (wf_cons_iff _ _).mpr ⟨hx, ?_⟩
              intro u hu
              rcases List.mem_append.mp hu with hu | hu
              · exact hl₁ u hu
              · rcases List.mem_cons.mp hu with rfl | hu
                · exact ⟨hy, hxy.symm⟩
                · obtain ⟨h1, h2⟩ := hl₂ u hu
                  exact ⟨h1, h2.trans hxy.symm⟩
  | succ k ih =>
    intro t₁ t₂ h₁ h₂ hc
    cases t₁ with
    | scalar a => simp [Tensor.shape, compatExcept_nil_left] at hc
    | dim l₁ =>
      cases t₂ with
      | scalar b => simp [Tensor.shape, compatExcept_nil_right] at hc
      | dim l₂ =>
        cases l₁ with
        | nil =>
          cases l₂ with
          | nil => simp [Tensor.shape, compatExcept, compatExcept_nil_left] at hc
          | cons y l₂' =>
            simp [Tensor.shape, compatExcept, compatExcept_nil_left] at hc
        | cons x l₁' =>
          cases l₂ with
          | nil =>
            simp [Tensor.shape, compatExcept, compatExcept_nil_right] at hc
          | cons y l₂' =>
            have hc' : l₁'.length = l₂'.length ∧
                compatExcept k x.shape y.shape = true := by
              have := hc
              simp only [Tensor.shape, compatExcept, Bool.and_eq_true,
                beq_iff_eq, Nat.add_right_cancel_iff] at this
              exact this
            obtain ⟨hlen, hcxy⟩ := hc'
            obtain ⟨hx, hl₁⟩ := (wf_cons_iff x l₁').mp h₁
            obtain ⟨hy, hl₂⟩ := (wf_cons_iff y l₂').mp h₂
            obtain ⟨hsxy, hwxy⟩ := ih x y hx hy hcxy
            constructor
            · show (Tensor.dim
                  (concat2 k x y :: List.zipWith (concat2 k) l₁' l₂')).shape = _
              simp only [Tensor.shape, List.length_zipWith, hlen, min_self,
                List.set_cons_succ, List.getD_cons_succ, hsxy]
            · show (Tensor.dim
                  (concat2 k x y :: List.zipWith (concat2 k) l₁' l₂')).wf = true
              refine (wf_cons_iff _ _).mpr ⟨hwxy, ?_⟩
              intro w hw
              obtain ⟨u, hu, v, hv, rfl⟩ := exists_of_mem_zipWith hw
              obtain ⟨hwu, hsu⟩ := hl₁ u hu
              obtain ⟨hwv, hsv⟩ := hl₂ v hv
              have hcuv : compatExcept k u.shape v.shape = true := by
                rw [hsu, hsv]; exact hcxy
              obtain ⟨hs, hw'⟩ := ih u v hwu hwv hcuv
              exact ⟨hw', by rw [hs, hsxy, hsu, hsv]⟩

/-- Shape and well-formedness of list concatenation: the result of
concatenating a non-empty compatible list of well-formed tensors along
dimension `k` is well-formed and has the first input's shape with the size
at `k` replaced by the sum of all the inputs' sizes at `k`. -/
theorem concatAll_spec (k : Nat) : ∀ (ts : List (Tensor α)) (t : Tensor α),
    k < t.shape.length → t.wf = true →
    (∀ u ∈ ts, u.wf = true ∧ compatExcept k t.shape u.shape = true) →
    (concatAll k (t :: ts)).wf = true ∧
      (concatAll k (t :: ts)).shape
        = t.shape.set k (((t :: ts).map (fun u => u.shape.getD k 0)).sum) := by
  intro ts
  induction ts with
  | nil =>
    intro t hk hw _
    refine ⟨hw, ?_⟩
    show t.shape = _
    simp only [List.map_cons, List.map_nil, List.sum_cons, List.sum_nil,
      Nat.add_zero]
    exact (set_getD_self t.shape k hk).symm
  | cons u ts ih =>
    intro t hk hw hall
    obtain ⟨hwu, hcu⟩ := hall u (by simp)
    have hku : k < u.shape.length := by
      rw [← compatExcept_length k t.shape u.shape hcu]
      exact hk
    have hall' : ∀ w ∈ ts, w.wf = true ∧ compatExcept k u.shape w.shape = true := by
      intro w hwm
      obtain ⟨h1, h2⟩ := hall w (by simp [hwm])
      exact ⟨h1, compatExcept_trans k t.shape u.shape w.shape hcu h2⟩
    obtain ⟨hwR, hsR⟩ := ih u hku hwu hall'
    have hcR : compatExcept k t.shape (concatAll k (u :: ts)).shape = true := by
      rw [hsR]
      exact compatExcept_set_right k t.shape u.shape _ hcu
    obtain ⟨hsC, hwC⟩ := concat2_spec k t (concatAll k (u :: ts)) hw hwR hcR
    constructor
    · exact hwC
    · show (concat2 k t (concatAll k (u :: ts))).shape = _
      rw [hsC, hsR, getD_set_self u.shape k _ hku]
      simp only [List.map_cons, List.sum_cons]

/-- Taking the full size of a well-formed tensor along a valid dimension is
the identity. -/
theorem take2_self : ∀ (k : Nat) (t : Tensor α), t.wf = true →
    k < t.shape.length → take2 k (t.shape.getD k 0) t = t := by
  intro k
  induction k with
  | zero =>
    intro t hw hk
    cases t with
    | scalar a => simp [Tensor.shape] at hk
    | dim l =>
      cases l with
      | nil => rfl
      | cons x l' =>
        show Tensor.dim (List.take (l'.length + 1) (x :: l')) = Tensor.dim (x :: l')
        rw [show l'.length + 1 = (x :: l').length from rfl, List.take_length]
  | succ k ih =>
    intro t hw hk
    cases t with
    | scalar a => simp [Tensor.shape] at hk
    | dim l =>
      cases l with
      | nil => simp [Tensor.shape] at hk
      | cons x l' =>
        obtain ⟨hx, hl⟩ := (wf_cons_iff x l').mp hw
        have hk' : k < x.shape.length := by
          simp only [Tensor.shape, List.length_cons] at hk
          omega
        show Tensor.dim ((x :: l').map (take2 k (x.shape.getD k 0))) = Tensor.dim (x :: l')
        congr 1
        apply map_eq_self_of_mem
        intro w hwm
        rcases List.mem_cons.mp hwm with rfl | hwm
        · exact ih w hx hk'
        · obtain ⟨hww, hws⟩ := hl w hwm
          rw [← hws]
          exact ih w hww (by rw [hws]; exact hk')

/-- Taking the first input's size along `k` from a binary concatenation
recovers the first input. -/
theorem take2_concat2 : ∀ (k : Nat) (t₁ t₂ : Tensor α), t₁.wf = true →
    t₂.wf = true → compatExcept k t₁.shape t₂.shape = true →
    take2 k (t₁.shape.getD k 0) (concat2 k t₁ t₂) = t₁ := by
  intro k
  induction k with
  | zero =>
    intro t₁ t₂ h₁ h₂ hc
    cases t₁ with
    | scalar a => simp [Tensor.shape, compatExcept_nil_left] at hc
    | dim l₁ =>
      cases t₂ with
      | scalar b => simp [Tensor.shape, compatExcept_nil_right] at hc
      | dim l₂ =>
        have hlen : (Tensor.dim l₁).shape.getD 0 0 = l₁.length := by
          cases l₁ <;> simp [Tensor.shape]
        show Tensor.dim (List.take ((Tensor.dim l₁).shape.getD 0 0) (l₁ ++ l₂))
            = Tensor.dim l₁
        rw [hlen, List.take_left]
  | succ k ih =>
    intro t₁ t₂ h₁ h₂ hc
    cases t₁ with
    | scalar a => simp [Tensor.shape, compatExcept_nil_left] at hc
    | dim l₁ =>
      cases t₂ with
      | scalar b => simp [Tensor.shape, compatExcept_nil_right] at hc
      | dim l₂ =>
        cases l₁ with
        | nil =>
          cases l₂ with
          | nil => simp [Tensor.shape, compatExcept, compatExcept_nil_left] at hc
          | cons y l₂' =>
            simp [Tensor.shape, compatExcept, compatExcept_nil_left] at hc
        | cons x l₁' =>
          cases l₂ with
          | nil =>
            simp [Tensor.shape, compatExcept, compatExcept_nil_right] at hc
          | cons y l₂' =>
            have hc' : l₁'.length = l₂'.length ∧
                compatExcept k x.shape y.shape = true := by
              have := hc
              simp only [Tensor.shape, compatExcept, Bool.and_eq_true,
                beq_iff_eq, Nat.add_right_cancel_iff] at this
              exact this
            obtain ⟨hlen, hcxy⟩ := hc'
            obtain ⟨hx, hl₁⟩ := (wf_cons_iff x l₁').mp h₁
            obtain ⟨hy, hl₂⟩ := (wf_cons_iff y l₂').mp h₂
            show Tensor.dim
                ((List.zipWith (concat2 k) (x :: l₁') (y :: l₂')).map
                  (take2 k (x.shape.getD k 0)))
              = Tensor.dim (x :: l₁')
            rw [List.map_zipWith]
            congr 1
            apply zipWith_eq_left
            · simp [hlen]
            · intro u hu v hv
              have hsu : u.shape = x.shape := by
                rcases List.mem_cons.mp hu with rfl | hu
                · rfl
                · exact (hl₁ u hu).2
              have hwu : u.wf = true := by
                rcases List.mem_cons.mp hu with rfl | hu
                · exact hx
                · exact (hl₁ u hu).1
              have hsv : v.shape = y.shape := by
                rcases List.mem_cons.mp hv with rfl | hv
                · rfl
                · exact (hl₂ v hv).2
              have hwv : v.wf = true := by
                rcases List.mem_cons.mp hv with rfl | hv
                · exact hy
                · exact (hl₂ v hv).1
              rw [← hsu]
              exact ih u v hwu hwv (by rw [hsu, hsv]; exact hcxy)

/-- Dropping the first input's size along `k` from a binary concatenation
recovers the second input. -/
theorem drop2_concat2 : ∀ (k : Nat) (t₁ t₂ : Tensor α), t₁.wf = true →
    t₂.wf = true → compatExcept k t₁.shape t₂.shape = true →
    drop2 k (t₁.shape.getD k 0) (concat2 k t₁ t₂) = t₂ := by
  intro k
  induction k with
  | zero =>
    intro t₁ t₂ h₁ h₂ hc
    cases t₁ with
    | scalar a => simp [Tensor.shape, compatExcept_nil_left] at hc
    | dim l₁ =>
      cases t₂ with
      | scalar b => simp [Tensor.shape, compatExcept_nil_right] at hc
      | dim l₂ =>
        have hlen : (Tensor.dim l₁).shape.getD 0 0 = l₁.length := by
          cases l₁ <;> simp [Tensor.shape]
        show Tensor.dim (List.drop ((Tensor.dim l₁).shape.getD 0 0) (l₁ ++ l₂))
            = Tensor.dim l₂
        rw [hlen, List.drop_left]
  | succ k ih =>
    intro t₁ t₂ h₁ h₂ hc
    cases t₁ with
    | scalar a => simp [Tensor.shape, compatExcept_nil_left] at hc
    | dim l₁ =>
      cases t₂ with
      | scalar b => simp [Tensor.shape, compatExcept_nil_right] at hc
      | dim l₂ =>
        cases l₁ with
        | nil =>
          cases l₂ with
          | nil => simp [Tensor.shape, compatExcept, compatExcept_nil_left] at hc
          | cons y l₂' =>
            simp [Tensor.shape, compatExcept, compatExcept_nil_left] at hc
        | cons x l₁' =>
          cases l₂ with
          | nil =>
            simp [Tensor.shape, compatExcept, compatExcept_nil_right] at hc
          | cons y l₂' =>
            have hc' : l₁'.length = l₂'.length ∧
                compatExcept k x.shape y.shape = true := by
              have := hc
              simp only [Tensor.shape, compatExcept, Bool.and_eq_true,
                beq_iff_eq, Nat.add_right_cancel_iff] at this
              exact this
            obtain ⟨hlen, hcxy⟩ := hc'
            obtain ⟨hx, hl₁⟩ := (wf_cons_iff x l₁').mp h₁
            obtain ⟨hy, hl₂⟩ := (wf_cons_iff y l₂').mp h₂
            show Tensor.dim
                ((List.zipWith (concat2 k) (x :: l₁') (y :: l₂')).map
                  (drop2 k (x.shape.getD k 0)))
              = Tensor.dim (y :: l₂')
            rw [List.map_zipWith]
            congr 1
            apply zipWith_eq_right
            · simp [hlen]
            · intro u hu v hv
              have hsu : u.shape = x.shape := by
                rcases List.mem_cons.mp hu with rfl | hu
                · rfl
                · exact (hl₁ u hu).2
              have hwu : u.wf = true := by
                rcases List.mem_cons.mp hu with rfl | hu
                · exact hx
                · exact (hl₁ u hu).1
              have hsv : v.shape = y.shape := by
                rcases List.mem_cons.mp hv with rfl | hv
                · rfl
                · exact (hl₂ v hv).2
              have hwv : v.wf = true := by
                rcases List.mem_cons.mp hv with rfl | hv
                · exact hy
                · exact (hl₂ v hv).1
              rw [← hsu]
              exact ih u v hwu hwv (by rw [hsu, hsv]; exact hcxy)

/-- Splitting a list concatenation at the input boundaries recovers the
inputs, in order. -/
theorem splitSizes_concatAll (k : Nat) : ∀ (ts : List (Tensor α)) (t : Tensor α),
    k < t.shape.length → t.wf = true →
    (∀ u ∈ ts, u.wf = true ∧ compatExcept k t.shape u.shape = true) →
    splitSizes k ((t :: ts).map (fun u => u.shape.getD k 0)) (concatAll k (t :: ts))
      = t :: ts := by
  intro ts
  induction ts with
  | nil =>
    intro t hk hw _
    show [take2 k (t.shape.getD k 0) t] = [t]
    rw [take2_self k t hw hk]
  | cons u ts ih =>
    intro t hk hw hall
    obtain ⟨hwu, hcu⟩ := hall u (by simp)
    have hku : k < u.shape.length := by
      rw [← compatExcept_length k t.shape u.shape hcu]
      exact hk
    have hall' : ∀ w ∈ ts, w.wf = true ∧ compatExcept k u.shape w.shape = true := by
      intro w hwm
      obtain ⟨h1, h2⟩ := hall w (by simp [hwm])
      exact ⟨h1, compatExcept_trans k t.shape u.shape w.shape hcu h2⟩
    obtain ⟨hwR, hsR⟩ := concatAll_spec k ts u hku hwu hall'
    have hcR : compatExcept k t.shape (concatAll k (u :: ts)).shape = true := by
      rw [hsR]
      exact compatExcept_set_right k t.shape u.shape _ hcu
    show take2 k (t.shape.getD k 0) (concat2 k t (concatAll k (u :: ts)))
        :: splitSizes k ((u :: ts).map (fun w => w.shape.getD k 0))
             (drop2 k (t.shape.getD k 0) (concat2 k t (concatAll k (u :: ts))))
      = t :: u :: ts
    rw [take2_concat2 k t _ hw hwR hcR, drop2_concat2 k t _ hw hwR hcR,
      ih u hku hwu hall']

theorem tfConcat_cons (t : Tensor α) (ts : List (Tensor α)) (axis : Int)
    (name : String) :
    tfConcat (t :: ts) axis name =
      match normAxis axis t.shape.length with
      | none => .error .invalidAxis
      | some a =>
        if ts.all (fun u => compatExcept a t.shape u.shape) then
          .ok ⟨name, concatAll a (t :: ts)⟩
        else
          .error .shapeMismatch := rfl

theorem tfConcat_ok (t : Tensor α) (ts : List (Tensor α)) (axis : Int)
    (name : String) (a : Nat) (ha : normAxis axis t.shape.length = some a)
    (hcomp : ∀ u ∈ ts, compatExcept a t.shape u.shape = true) :
    tfConcat (t :: ts) axis name = .ok ⟨name, concatAll a (t :: ts)⟩ := by
  rw [tfConcat_cons, ha]
  exact if_pos (List.all_eq_true.mpr hcomp)

theorem tfConcat_none (t : Tensor α) (ts : List (Tensor α)) (axis : Int)
    (name : String) (ha : normAxis axis t.shape.length = none) :
    tfConcat (t :: ts) axis name = .error .invalidAxis := by
  rw [tfConcat_cons, ha]

theorem tfConcat_some (t : Tensor α) (ts : List (Tensor α)) (axis : Int)
    (name : String) (a : Nat) (ha : normAxis axis t.shape.length = some a) :
    tfConcat (t :: ts) axis name =
      if ts.all (fun u => compatExcept a t.shape u.shape) then
        .ok ⟨name, concatAll a (t :: ts)⟩
      else
        .error .shapeMismatch := by
  rw [tfConcat_cons, ha]

theorem normAxis_lt {axis : Int} {rank a : Nat}
    (h : normAxis axis rank = some a) : a < rank := by
  unfold normAxis at h
  split at h
  · split at h
    · injection h with h'
      omega
    · exact absurd h (by simp)
  · split at h
    · injection h with h'
      omega
    · exact absurd h (by simp)

/-- A rank-1 sample tensor over `Int`, built from a list of values. -/
def vecT (l : List Int) : Tensor Int := .dim (l.map .scalar)

/-- A rank-2 sample tensor over `Int`, built from a list of rows. -/
def matT (l : List (List Int)) : Tensor Int := .dim (l.map vecT)

/-! ### Claim theorems -/

/-- Claim C1: the claim says `Elementwise.forward` folds the inputs with
the configured combine function and then applies the optional activation;
the code instead reads the unbound module-level name `combine_fn` in the
loop body.  Evaluating the embedded code at the failing input (combine =
addition, no activation, three inputs) yields a `NameError`, not the
element-wise sum the claim requires. -/
theorem C1_elementwise_fold_code_bug :
    (Elementwise.make "elementwise" tfAdd none none).forward
        [vecT [1, 2], vecT [3, 4], vecT [5, 6]]
      = .error .nameError
    ∧ Except.error PyError.nameError
        ≠ (.ok (tfAdd (tfAdd (vecT [1, 2]) (vecT [3, 4])) (vecT [5, 6])) :
            Except PyError (Tensor Int)) :=
  ⟨rfl, fun h => Except.noConfusion h⟩

/-- Claim C2: the claim says each layer exposes its configuration as
readable attributes equal to the constructor arguments.  `Concat` does
(axis and name), but `Elementwise.__init__` stores neither `combine_fn`
nor `act`: evaluating the embedded constructor with an explicit activation
shows the `act` attribute remains `None`, and the layer state has no
combine attribute at all. -/
theorem C2_attributes_code_bug :
    (Elementwise.make "elementwise" tfAdd (some (tfAdd (vecT [1]))) (some "ew")).act
      = none
    ∧ some (tfAdd (vecT [1])) ≠ (none : Option (Tensor Int → Tensor Int))
    ∧ (Elementwise.make "elementwise" tfAdd (some (tfAdd (vecT [1]))) (some "ew")).name
      = "ew"
    ∧ (Concat.make "concat" 1 (some "cc")).concat_dim = 1
    ∧ (Concat.make "concat" 1 (some "cc")).name = "cc" :=
  ⟨rfl, fun h => Option.noConfusion h, rfl, rfl, rfl⟩

/-- Claim C3: the claim says `forward([a])` returns `a` unchanged when no
activation is configured.  The code instead executes
`outputs = self.act(outputs)` unconditionally, and `self.act` is `None`,
so the embedded code at the failing input yields a `TypeError` rather
than the input tensor. -/
theorem C3_single_input_code_bug :
    (Elementwise.make "elementwise" tfAdd none none).forward [vecT [7, 8]]
      = .error .typeError
    ∧ Except.error PyError.typeError
        ≠ (.ok (vecT [7, 8]) : Except PyError (Tensor Int)) :=
  ⟨rfl, fun h => Except.noConfusion h⟩

/-- Claim C4: for every non-empty sequence of well-formed input tensors
whose shapes agree outside the configured axis (normalised against the
first input's rank), `Concat.forward` succeeds and returns a tensor whose
size along the axis is the sum of the inputs' sizes along it, every other
dimension keeping the common input size (the shape is the first input's
shape with only the axis entry replaced). -/
theorem C4_concat_shape (l : Concat) (t : Tensor α) (ts : List (Tensor α))
    (a : Nat) (ha : normAxis l.concat_dim t.shape.length = some a)
    (hw : t.wf = true)
    (hts : ∀ u ∈ ts, u.wf = true ∧ compatExcept a t.shape u.shape = true) :
    ∃ out : NamedTensor α,
      l.forward (t :: ts) = .ok out
      ∧ out.val.shape
          = t.shape.set a (((t :: ts).map (fun u => u.shape.getD a 0)).sum) := by
  obtain ⟨hwAll, hsAll⟩ := concatAll_spec a ts t (normAxis_lt ha) hw hts
  exact ⟨⟨l.name, concatAll a (t :: ts)⟩,
    tfConcat_ok t ts l.concat_dim l.name a ha (fun u hu => (hts u hu).2), hsAll⟩

/-- Witness for C4: `Concat` with axis 1 applied to tensors of shape
(2, 3) and (2, 2) succeeds with output shape (2, 5). -/
theorem C4_concat_shape_witness :
    ∃ out : NamedTensor Int,
      (Concat.make "concat" 1 (some "c")).forward
          [matT [[1, 2, 3], [4, 5, 6]], matT [[7, 8], [9, 10]]]
        = .ok out
      ∧ out.val.shape = [2, 5] := by
  obtain ⟨out, h1, h2⟩ :=
    C4_concat_shape (Concat.make "concat" 1 (some "c"))
      (matT [[1, 2, 3], [4, 5, 6]]) [matT [[7, 8], [9, 10]]] 1 rfl rfl
      (by decide)
  exact ⟨out, h1, h2⟩

/-- Claim C5: splitting the output of `Concat.forward` along the
(normalised) axis at the input boundaries recovers the original inputs in
order. -/
theorem C5_concat_split_roundtrip (l : Concat) (t : Tensor α)
    (ts : List (Tensor α)) (a : Nat)
    (ha : normAxis l.concat_dim t.shape.length = some a)
    (hw : t.wf = true)
    (hts : ∀ u ∈ ts, u.wf = true ∧ compatExcept a t.shape u.shape = true) :
    ∃ out : NamedTensor α,
      l.forward (t :: ts) = .ok out
      ∧ splitSizes a ((t :: ts).map (fun u => u.shape.getD a 0)) out.val
          = t :: ts := by
  refine ⟨⟨l.name, concatAll a (t :: ts)⟩,
    tfConcat_ok t ts l.concat_dim l.name a ha (fun u hu => (hts u hu).2), ?_⟩
  exact splitSizes_concatAll a ts t (normAxis_lt ha) hw hts

/-- Witness for C5: concatenating shapes (2, 2) and (2, 1) along axis -1
(normalised to 1) and splitting back at sizes [2, 1] recovers the two
inputs. -/
theorem C5_concat_split_roundtrip_witness :
    ∃ out : NamedTensor Int,
      (Concat.make "concat" (-1) (some "c")).forward
          [matT [[1, 2], [3, 4]], matT [[5], [6]]]
        = .ok out
      ∧ splitSizes 1 [2, 1] out.val = [matT [[1, 2], [3, 4]], matT [[5], [6]]] := by
  obtain ⟨out, h1, h2⟩ :=
    C5_concat_split_roundtrip (Concat.make "concat" (-1) (some "c"))
      (matT [[1, 2], [3, 4]]) [matT [[5], [6]]] 1 (by decide) rfl (by decide)
  exact ⟨out, h1, h2⟩

/-- Claim C6: failure characterisation of `Concat.forward` on a non-empty
input list: it fails with the engine's invalid-axis error exactly when the
configured axis is outside the valid range of the first input's rank;
under a valid axis it fails with the engine's shape-mismatch error exactly
when some input disagrees with the first outside the axis; and the result
is exactly the engine's (`tf.concat`'s) result — the layer adds no
validation or handling of its own. -/
theorem C6_concat_errors (l : Concat) (t : Tensor α) (ts : List (Tensor α)) :
    (l.forward (t :: ts) = .error .invalidAxis
      ↔ normAxis l.concat_dim t.shape.length = none)
    ∧ (∀ a, normAxis l.concat_dim t.shape.length = some a →
        (l.forward (t :: ts) = .error .shapeMismatch
          ↔ ¬ ∀ u ∈ ts, compatExcept a t.shape u.shape = true))
    ∧ l.forward (t :: ts) = tfConcat (t :: ts) l.concat_dim l.name := by
  refine ⟨?_, ?_, rfl⟩
  · rcases hna : normAxis l.concat_dim t.shape.length with _ | a
    · exact ⟨fun _ => rfl, fun _ => tfConcat_none t ts l.concat_dim l.name hna⟩
    · constructor
      · intro h
        exfalso
        rw [show l.forward (t :: ts) = tfConcat (t :: ts) l.concat_dim l.name
            from rfl, tfConcat_some t ts l.concat_dim l.name a hna] at h
        by_cases hall : (ts.all fun u => compatExcept a t.shape u.shape) = true
        · rw [if_pos hall] at h
          exact Except.noConfusion h
        · rw [if_neg hall] at h
          simp only [Except.error.injEq] at h
          exact TfError.noConfusion h
      · intro h
        exact absurd h (fun h => Option.noConfusion h)
  · intro a ha
    rw [show l.forward (t :: ts) = tfConcat (t :: ts) l.concat_dim l.name
        from rfl, tfConcat_some t ts l.concat_dim l.name a ha]
    by_cases hall : (ts.all fun u => compatExcept a t.shape u.shape) = true
    · rw [if_pos hall]
      rw [List.all_eq_true] at hall
      exact ⟨fun h => absurd h (fun h => Except.noConfusion h),
        fun h => absurd hall h⟩
    · rw [if_neg hall]
      rw [List.all_eq_true] at hall
      exact ⟨fun _ => hall, fun _ => rfl⟩

/-- Witness for C6: axis 5 on rank-2 inputs yields the invalid-axis
error; axis 1 with row counts 1 and 2 yields the shape-mismatch error. -/
theorem C6_concat_errors_witness :
    (Concat.make "concat" 5 (some "c")).forward [matT [[1]], matT [[2]]]
        = .error .invalidAxis
    ∧ (Concat.make "concat" 1 (some "c")).forward [matT [[1]], matT [[2], [3]]]
        = .error .shapeMismatch := by
  constructor
  · exact (C6_concat_errors (Concat.make "concat" 5 (some "c"))
      (matT [[1]]) [matT [[2]]]).1.mpr rfl
  · exact ((C6_concat_errors (Concat.make "concat" 1 (some "c"))
      (matT [[1]]) [matT [[2], [3]]]).2.1 1 rfl).mpr (by decide)

/-- Claim C7: the claim says both layers tag their output with the layer
name, including the single-input `Elementwise` case.  `Concat` does (the
name is passed to the engine's concat and the output carries it), but the
embedded `Elementwise.forward` on a single input raises `TypeError`
instead of producing any (tagged) output. -/
theorem C7_tagging_code_bug :
    (Elementwise.make "elementwise" tfMin none (some "ew")).forward [vecT [1, 2]]
      = .error .typeError
    ∧ ∃ out : NamedTensor Int,
        (Concat.make "concat" 0 (some "cc")).forward [vecT [1], vecT [2]]
          = .ok out
        ∧ out.tag = "cc" :=
  ⟨rfl, ⟨"cc", concatAll 0 [vecT [1], vecT [2]]⟩, rfl, rfl⟩

/-- Claim C8: determinism and statelessness of both forward methods: on
equal input sequences the results are equal, and the layer state after the
call equals the state before it (the embedded method bodies read but never
write the layer's attributes). -/
theorem C8_forward_pure (lc : Concat) (le : Elementwise α)
    (ins₁ ins₂ : List (Tensor α)) (h : ins₁ = ins₂) :
    Concat.forwardS lc ins₁ = Concat.forwardS lc ins₂
    ∧ (Concat.forwardS lc ins₁).2 = lc
    ∧ Elementwise.forwardS le ins₁ = Elementwise.forwardS le ins₂
    ∧ (Elementwise.forwardS le ins₁).2 = le := by
  subst h
  exact ⟨rfl, rfl, rfl, rfl⟩

/-- Witness for C8 at concrete layers and inputs. -/
theorem C8_forward_pure_witness :
    (Concat.forwardS (Concat.make "concat" 0 none) [vecT [1]]).2
      = Concat.make "concat" 0 none
    ∧ (Elementwise.forwardS (Elementwise.makeDefault "elementwise") [vecT [1]]).2
      = Elementwise.makeDefault "elementwise" := by
  have h := C8_forward_pure (Concat.make "concat" 0 none)
    (Elementwise.makeDefault "elementwise") [vecT [1]] [vecT [1]] rfl
  exact ⟨h.2.1, h.2.2.2⟩

/-- Claim C9: on the empty input list `Elementwise.forward` fails with the
index error of `inputs[0]`, independently of the layer's configuration (in
particular before the combine or activation paths, whose errors are
`NameError` and `TypeError`, could run), the layer state is unchanged, and
on any non-empty input list this error cannot occur. -/
theorem C9_empty_input (l : Elementwise α) (inputs : List (Tensor α))
    (h : inputs ≠ []) :
    Elementwise.forwardS l [] = (.error .indexError, l)
    ∧ (∀ l' : Elementwise α,
        Elementwise.forward l' ([] : List (Tensor α))
          = Elementwise.forward l [])
    ∧ Elementwise.forward l inputs ≠ .error .indexError := by
  refine ⟨rfl, fun l' => rfl, ?_⟩
  match inputs with
  | [] => exact absurd rfl h
  | [t] =>
    cases hact : l.act with
    | some f =>
      simp [Elementwise.forward, hact]
    | none =>
      simp [Elementwise.forward, hact]
  | _ :: _ :: _ =>
    simp [Elementwise.forward]

/-- Witness for C9 at a concrete layer and a concrete non-empty input. -/
theorem C9_empty_input_witness :
    Elementwise.forwardS (Elementwise.makeDefault "elementwise") []
      = (.error .indexError, Elementwise.makeDefault "elementwise")
    ∧ Elementwise.forward (Elementwise.makeDefault "elementwise") [vecT [1]]
      ≠ .error .indexError := by
  have h := C9_empty_input (Elementwise.makeDefault "elementwise") [vecT [1]]
    (by simp)
  exact ⟨h.1, h.2.2⟩

/-- Claim C10: the claim says the default construction configures axis -1
for `Concat` (true) and element-wise minimum as the combine function with
no activation for `Elementwise`.  The default argument is `tf.minimum` and
the activation attribute is indeed `None`, but the constructor does not
retain the combine function: evaluating the default layer on two tensors
raises `NameError` instead of computing their element-wise minimum. -/
theorem C10_defaults_code_bug :
    (Concat.makeDefault "concat").concat_dim = -1
    ∧ (Elementwise.makeDefault "elementwise").act = none
    ∧ (Elementwise.makeDefault "elementwise").forward [vecT [1, 5], vecT [3, 4]]
        = .error .nameError
    ∧ Except.error PyError.nameError
        ≠ (.ok (tfMin (vecT [1, 5]) (vecT [3, 4])) : Except PyError (Tensor Int)) :=
  ⟨rfl, rfl, rfl, fun h => Except.noConfusion h⟩

end TL
